import Mathlib

/-!
Verification of the file-system tool suite (file editor, file reader, directory
mapper, directory creator) against its natural-language specification.

The Python sources are shallowly embedded:

* Strings are Lean `String`s (sequences of code points, as in Python); the
  low-level splitting primitives work on `List Char`.
* The file system is a value of type `FS`: a finite map from paths to decoded
  text contents plus a set of existing directories.  OS primitives
  (`open`/`read`/`write`, `os.makedirs`, `os.listdir`) are idealized as total
  operations on `FS`, so the blanket `except` handlers of the tools are never
  exercised; file contents are modelled in their text-mode decoded form (the
  universal-newline translation performed by `open(..., "r")` is treated as
  already applied).
* Each tool's `_run` becomes a pure function from the current `FS` and the
  call arguments to the returned message (and the new `FS` for mutating tools).
* The directory mapper is embedded over `FTree`, the tree of files and
  directories reachable from the root path; node names play the role of
  `os.path.basename`, and `os.listdir` returns the children in arbitrary
  order, which the source immediately filters and sorts (Python `sorted` on
  names is a stable lexicographic sort, modelled by `List.insertionSort`).
-/

/-! ## Python string primitives -/

/-- Characters treated as line terminators by Python `str.splitlines`:
`\n`, `\r`, `\v`, `\f`, `\x1c`, `\x1d`, `\x1e`, `\x85`, `\u2028`, `\u2029`. -/
def isPyLineBreak (c : Char) : Bool :=
  c = '\n' || c = '\r' || c = '\x0b' || c = '\x0c' ||
  c = '\x1c' || c = '\x1d' || c = '\x1e' || c = '\u0085' ||
  c = '\u2028' || c = '\u2029'

/-- Core of Python `str.splitlines(keepends=keep)`: split at every terminator
recognized by `isPyLineBreak`, with `\r\n` counted as one terminator; a final
unterminated segment is kept as a line, and the empty string yields no lines.
`acc` holds the reversed characters of the line being scanned. -/
def pySplitlinesAux (keep : Bool) (acc : List Char) : List Char → List (List Char)
  | [] => if acc.isEmpty then [] else [acc.reverse]
  | [c] =>
      if isPyLineBreak c then
        (acc.reverse ++ if keep then [c] else []) :: pySplitlinesAux keep [] []
      else pySplitlinesAux keep (c :: acc) []
  | c :: c2 :: rest =>
      if c = '\r' ∧ c2 = '\n' then
        (acc.reverse ++ if keep then ['\r', '\n'] else []) :: pySplitlinesAux keep [] rest
      else if isPyLineBreak c then
        (acc.reverse ++ if keep then [c] else []) :: pySplitlinesAux keep [] (c2 :: rest)
      else pySplitlinesAux keep (c :: acc) (c2 :: rest)

/-- Python `content.splitlines(keepends=True)`. -/
def pySplitlinesKeep (l : List Char) : List (List Char) := pySplitlinesAux true [] l

/-- Python `content.splitlines()`. -/
def pySplitlinesDrop (l : List Char) : List (List Char) := pySplitlinesAux false [] l

/-- Python `f.readlines()` for a text-mode file whose decoded content is `acc`
pushed onto the remaining input: split after every `\n`, keeping the
terminator.  After universal-newline decoding, `\n` is the only terminator
`readlines` splits on. -/
def readlinesAux (acc : List Char) : List Char → List (List Char)
  | [] => if acc.isEmpty then [] else [acc.reverse]
  | c :: rest =>
      if c = '\n' then (acc.reverse ++ ['\n']) :: readlinesAux [] rest
      else readlinesAux (c :: acc) rest

/-- `f.readlines()` on a file with decoded content `s`. -/
def pyReadlines (s : String) : List (List Char) := readlinesAux [] s.data

/-- Python slicing `l[:k]` for an arbitrary (possibly negative) stop index. -/
def pySliceTo (k : Int) (l : List Char) : List Char :=
  if 0 ≤ k then l.take k.toNat else l.take (l.length - (-k).toNat)

/-! ## The file-system model -/

/-- A file system: a finite map from paths to decoded text contents (later
bindings shadow earlier ones) plus the set of existing directories. -/
structure FS where
  files : List (String × String)
  dirs : List String
deriving DecidableEq

/-- Content of the file at `p`, if a file exists there. -/
def FS.getFile (fs : FS) (p : String) : Option String := fs.files.lookup p

/-- `os.path.isfile`. -/
def FS.isfile (fs : FS) (p : String) : Bool := (fs.getFile p).isSome

/-- `os.path.isdir`. -/
def FS.isdir (fs : FS) (p : String) : Bool := fs.dirs.contains p

/-- `os.path.exists`. -/
def FS.pexists (fs : FS) (p : String) : Bool := fs.isfile p || fs.isdir p

/-- `open(p, "w")` followed by writing `c`. -/
def FS.setFile (fs : FS) (p c : String) : FS := { fs with files := (p, c) :: fs.files }

/-- `posixpath.dirname`: the input up to (and including) its final slash;
trailing slashes are then stripped unless that head consists only of slashes. -/
def dirnameChars (l : List Char) : List Char :=
  let head := (l.reverse.dropWhile (fun c => !(c = '/'))).reverse
  if head.isEmpty then []
  else if head.all (fun c => c = '/') then head
  else (head.reverse.dropWhile (fun c => c = '/')).reverse

/-- `os.path.dirname` on strings. -/
def dirname (s : String) : String := ⟨dirnameChars s.data⟩

/-- The directory `d` together with its chain of `dirname` ancestors, which is
what `os.makedirs` creates; the fuel bounds the number of `dirname` steps
(`dirname` shortens its argument except at an all-slash fixed point). -/
def pathAncestors : Nat → String → List String
  | 0, _ => []
  | n + 1, d =>
      if d = "" then []
      else d :: (if dirname d = d then [] else pathAncestors n (dirname d))

/-- `os.makedirs(d, exist_ok=True)`. -/
def FS.makedirs (fs : FS) (d : String) : FS :=
  { fs with dirs := pathAncestors (d.length + 1) d ++ fs.dirs }

/-! ## FileEditorTool -/

/-- `FileEditorTool._run` on the file system `fs`: returns the message string
and the file system after the call.  Messages are the f-strings of the source,
built with explicit concatenation.  The clamping in the insert action
(`index = start_line - 1`, reset to `len(lines)` when larger) and the slice
arithmetic reuse Python int semantics via `Int`; the list slices that the
checks have made non-negative are taken with `Int.toNat`. -/
def fileEditorRun (fs : FS) (file_path action : String) (content : Option String)
    (start_line end_line : Option Int) : String × FS :=
  if ¬(action = "new" ∨ action = "insert" ∨ action = "update") then
    ("Error: Invalid action specified. Must be 'new', 'insert', or 'update'.", fs)
  else if action = "new" then
    if fs.pexists file_path then
      ("Error: File '" ++ file_path ++ "' already exists.", fs)
    else
      let directory := dirname file_path
      let fs1 := if directory ≠ "" ∧ ¬(fs.pexists directory) then fs.makedirs directory else fs
      ("Successfully created new file '" ++ file_path ++ "'.",
        fs1.setFile file_path (content.getD ""))
  else if ¬(fs.isfile file_path) then
    ("Error: File '" ++ file_path ++ "' does not exist.", fs)
  else
    match content with
    | none => ("Error: content is required for insert and update actions.", fs)
    | some c =>
      let lines := pyReadlines ((fs.getFile file_path).getD "")
      if action = "insert" then
        match start_line with
        | some sl =>
          if sl < 1 then ("Error: start_line must be at least 1.", fs)
          else
            let index : Int :=
              if sl - 1 > (lines.length : Int) then (lines.length : Int) else sl - 1
            let newLines := pySplitlinesKeep c.data
            let updated := lines.take index.toNat ++ newLines ++ lines.drop index.toNat
            ("Successfully inserted content into file '" ++ file_path ++ "' at line " ++
                toString (index + 1) ++ ".",
              fs.setFile file_path ⟨updated.flatten⟩)
        | none =>
            let newLines := pySplitlinesKeep c.data
            let lines2 :=
              if lines ≠ [] ∧ (lines.getLast?.getD []).getLast? ≠ some '\n' ∧ newLines ≠ [] then
                lines.dropLast ++ [(lines.getLast?.getD []) ++ ['\n']]
              else lines
            ("Successfully inserted content into file '" ++ file_path ++ "' at line " ++
                toString (lines.length + 1) ++ ".",
              fs.setFile file_path ⟨(lines2 ++ newLines).flatten⟩)
      else
        match start_line, end_line with
        | some sl, some el =>
          if sl < 1 ∨ el < sl then ("Error: Invalid start_line or end_line values.", fs)
          else if el > (lines.length : Int) then
            ("Error: end_line " ++ toString el ++
                " exceeds total number of lines in file (file has " ++
                toString lines.length ++ " lines).", fs)
          else
            let newLines := pySplitlinesKeep c.data
            let updated := lines.take (sl - 1).toNat ++ newLines ++ lines.drop el.toNat
            ("Successfully updated lines " ++ toString sl ++ " to " ++ toString el ++
                " in file '" ++ file_path ++ "'.",
              fs.setFile file_path ⟨updated.flatten⟩)
        | _, _ => ("Error: start_line and end_line are required for update action.", fs)

/-! ## FileReaderTool -/

/-- The numbering-and-joining step of `FileReaderTool._run`:
`"\n".join(f"{i+1}: {line}" for i, line in enumerate(lines))`, with the
enumeration counter threaded through the recursion. -/
def numberLines (i : Nat) : List (List Char) → List Char
  | [] => []
  | [l] => (Nat.repr (i + 1)).data ++ ':' :: ' ' :: l
  | l :: l2 :: ls =>
      (Nat.repr (i + 1)).data ++ ':' :: ' ' :: (l ++ '\n' :: numberLines (i + 1) (l2 :: ls))

/-- `FileReaderTool._run` on a readable file whose decoded content is `C`:
optional character-count truncation first, then optional line numbering. -/
def fileReaderRun (C : String) (max_chars : Option Int) (inject_line_numbers : Bool) : String :=
  let content :=
    match max_chars with
    | none => C.data
    | some k => pySliceTo k C.data
  if inject_line_numbers then ⟨numberLines 0 (pySplitlinesAux false [] content)⟩
  else ⟨content⟩

/-! ## CreateDirectoryTool -/

/-- `CreateDirectoryTool._run`: `os.makedirs(directory, exist_ok=True)` and a
success message. -/
def createDirectoryRun (fs : FS) (directory : String) : String × FS :=
  ("Successfully created directory '" ++ directory ++ "'.", fs.makedirs directory)

/-- The parameter names `CreateDirectoryTool._run` accepts besides `self`. -/
def createDirectoryRunParams : List String := ["directory", "run_manager"]

/-- The keyword arguments `CreateDirectoryTool._arun` passes to `self._run`
in addition to the positional `directory`. -/
def createDirectoryArunKwargs : List String := ["exist_ok", "run_manager"]

/-- `CreateDirectoryTool._arun`, including the Python keyword-binding step of
its delegation call: a call whose keyword arguments are not all among the
parameters of the callee raises `TypeError` before the callee body runs, and
`_arun` has no handler for it. -/
def createDirectoryArun (fs : FS) (directory : String) : Except String (String × FS) :=
  if createDirectoryArunKwargs.all (fun k => createDirectoryRunParams.contains k) then
    .ok (createDirectoryRun fs directory)
  else .error "TypeError: _run() got an unexpected keyword argument 'exist_ok'"

/-! ## DirectoryMapperTool: trees -/

/-- The tree of files and directories reachable from a root path, as seen
through `os.listdir` and `os.path.isdir`; a node carries its
`os.path.basename`.  Children are in the arbitrary order `os.listdir`
returns them. -/
inductive FTree where
  | file (name : String)
  | dir (name : String) (children : List FTree)

/-- Basename of the node. -/
def FTree.name : FTree → String
  | .file n => n
  | .dir n _ => n

/-- The hidden-entry test `entry.startswith(".")`. -/
def isHidden (name : String) : Bool := name.startsWith "."

/-- The stop test `depth is not None and level >= depth`. -/
def depthStop (depth : Option Nat) (level : Nat) : Bool :=
  match depth with
  | none => false
  | some d => level ≥ d

/-- Name order used by Python `sorted` on the entry names. -/
def nameLE (a b : FTree) : Prop := a.name ≤ b.name

instance : DecidableRel nameLE :=
  fun a b => inferInstanceAs (Decidable (a.name ≤ b.name))

instance : IsTotal FTree nameLE := ⟨fun a b => le_total a.name b.name⟩

instance : IsTrans FTree nameLE := ⟨fun _ _ _ h1 h2 => le_trans h1 h2⟩

/-- `sorted([entry for entry in os.listdir(path) if show_hidden or not
entry.startswith(".")])`, modelled on the child nodes: filter, then stable
lexicographic sort by name (`List.insertionSort` is stable, like Python
`sorted`). -/
def visibleSorted (show_hidden : Bool) (cs : List FTree) : List FTree :=
  List.insertionSort nameLE (cs.filter (fun c => show_hidden || !(isHidden c.name)))

theorem sizeOf_perm_eq {α : Type} [SizeOf α] {l l' : List α} (h : l.Perm l') :
    sizeOf l = sizeOf l' := by
  induction h with
  | nil => rfl
  | cons x _ ih => simp only [List.cons.sizeOf_spec, ih]
  | swap x y l => simp only [List.cons.sizeOf_spec]; omega
  | trans _ _ ih1 ih2 => omega

theorem sizeOf_filter_le {α : Type} [SizeOf α] (p : α → Bool) (l : List α) :
    sizeOf (l.filter p) ≤ sizeOf l := by
  induction l with
  | nil => simp
  | cons a l ih =>
    cases hpa : p a <;> simp [List.filter_cons, hpa, List.cons.sizeOf_spec] <;> omega

theorem sizeOf_visibleSorted_le (sh : Bool) (cs : List FTree) :
    sizeOf (visibleSorted sh cs) ≤ sizeOf cs :=
  le_trans (le_of_eq (sizeOf_perm_eq (List.perm_insertionSort nameLE _)))
    (sizeOf_filter_le _ cs)

mutual

/-- `DirectoryMapperTool._build_ascii_tree` on a tree node.  The source loops
over the sorted entries with an index, marking the last entry by
`idx == count - 1`; the loop is embedded as recursion over the entry list in
`asciiEntries`, where the last entry is the one whose tail is empty. -/
def buildAsciiTree (t : FTree) (pref : String) (show_hidden : Bool)
    (depth : Option Nat) (level : Nat) : List String :=
  match t with
  | .file name => [pref ++ name]
  | .dir name cs =>
    if depthStop depth level then [pref ++ name ++ "/"]
    else
      (pref ++ name ++ "/") ::
        asciiEntries (visibleSorted show_hidden cs) pref show_hidden depth level
termination_by 2 * sizeOf t
decreasing_by
  simp_wf
  rename_i cs _h
  have := sizeOf_visibleSorted_le show_hidden cs
  omega

/-- The body of the entry loop of `_build_ascii_tree`: connector and child
prefix for each entry, one line for a file entry, and for a directory entry
its own line followed by the recursive rendering minus its redundant first
line (`sub_lines[1:]`). -/
def asciiEntries (entries : List FTree) (pref : String) (show_hidden : Bool)
    (depth : Option Nat) (level : Nat) : List String :=
  match entries with
  | [] => []
  | c :: rest =>
    (match c with
     | .file nm => [pref ++ (if rest.isEmpty then "└── " else "├── ") ++ nm]
     | .dir nm cs2 =>
        (pref ++ (if rest.isEmpty then "└── " else "├── ") ++ nm ++ "/") ::
          (buildAsciiTree (.dir nm cs2)
            (pref ++ (if rest.isEmpty then "    " else "│   "))
            show_hidden depth (level + 1)).drop 1) ++
    asciiEntries rest pref show_hidden depth level
termination_by 2 * sizeOf entries + 1
decreasing_by
  all_goals simp_wf
  all_goals omega

end

/-- A node of the structured document `_build_json_tree` returns
(`json.dumps` serialization is abstracted away): the `type` field is the
constructor, `children` is present exactly for directories. -/
inductive JNode where
  | file (name : String)
  | dir (name : String) (children : List JNode)

/-- The `name` field. -/
def JNode.name : JNode → String
  | .file n => n
  | .dir n _ => n

mutual

/-- `DirectoryMapperTool._build_json_tree` on a tree node. -/
def buildJsonTree (t : FTree) (show_hidden : Bool) (depth : Option Nat)
    (level : Nat) : JNode :=
  match t with
  | .file name => .file name
  | .dir name cs =>
    if depthStop depth level then .dir name []
    else .dir name (jsonChildren (visibleSorted show_hidden cs) show_hidden depth level)
termination_by 2 * sizeOf t
decreasing_by
  simp_wf
  rename_i cs _h
  have := sizeOf_visibleSorted_le show_hidden cs
  omega

/-- The children comprehension
`[self._build_json_tree(os.path.join(path, entry), ...) for entry in entries]`. -/
def jsonChildren (entries : List FTree) (show_hidden : Bool) (depth : Option Nat)
    (level : Nat) : List JNode :=
  match entries with
  | [] => []
  | c :: rest =>
      buildJsonTree c show_hidden depth (level + 1) ::
        jsonChildren rest show_hidden depth level
termination_by 2 * sizeOf entries + 1
decreasing_by
  all_goals simp_wf
  all_goals omega

end

/-! ## Specification-side views of the rendered trees -/

mutual

/-- Names listed in a json document, in traversal order. -/
def jsonNames : JNode → List String
  | .file n => [n]
  | .dir n cs => n :: jsonNamesList cs

/-- Names listed by a forest of json documents. -/
def jsonNamesList : List JNode → List String
  | [] => []
  | c :: cs => jsonNames c ++ jsonNamesList cs

end

mutual

/-- Drop from a json document, at every level below the root, the children
whose name is hidden, keeping the remaining order. -/
def pruneHidden : JNode → JNode
  | .file n => .file n
  | .dir n cs => .dir n (pruneList cs)

/-- The children filter of `pruneHidden`. -/
def pruneList : List JNode → List JNode
  | [] => []
  | c :: cs =>
      if isHidden c.name then pruneList cs
      else pruneHidden c :: pruneList cs

end

mutual

/-- No node below the root of a json document has a hidden name. -/
def noHiddenAll : JNode → Bool
  | .file _ => true
  | .dir _ cs => noHiddenList cs

/-- The forest version of `noHiddenAll`: additionally checks the root names. -/
def noHiddenList : List JNode → Bool
  | [] => true
  | c :: cs => !(isHidden c.name) && noHiddenAll c && noHiddenList cs

end

mutual

/-- All names in a directory tree, in depth-first order. -/
def treeNames : FTree → List String
  | .file n => [n]
  | .dir n cs => n :: treeNamesList cs

/-- All names in a forest. -/
def treeNamesList : List FTree → List String
  | [] => []
  | c :: cs => treeNames c ++ treeNamesList cs

end

mutual

/-- Names of the nodes in the first `m` levels of a tree (the root is level 1);
`treeNamesUpTo 0` is empty. -/
def treeNamesUpTo : Nat → FTree → List String
  | 0, _ => []
  | _ + 1, .file n => [n]
  | m + 1, .dir n cs => n :: namesUpToList m cs
termination_by m t => 2 * (m + sizeOf t)

/-- Names of the nodes in the first `m` levels of each tree of a forest. -/
def namesUpToList : Nat → List FTree → List String
  | _, [] => []
  | m, c :: cs => treeNamesUpTo m c ++ namesUpToList m cs
termination_by m cs => 2 * (m + sizeOf cs) + 1

end

mutual

/-- Rendering of a json document in the ascii format: one line per node, the
node name prefixed by the tree connectors and suffixed by the directory
marker.  This is the common traversal skeleton shared by the two output
formats of the mapper. -/
def asciiOfJson (pref : String) : JNode → List String
  | .file n => [pref ++ n]
  | .dir n cs => (pref ++ n ++ "/") :: asciiChildrenJ pref cs

/-- The entry loop of `asciiOfJson`. -/
def asciiChildrenJ (pref : String) : List JNode → List String
  | [] => []
  | c :: rest =>
    (match c with
     | .file nm => [pref ++ (if rest.isEmpty then "└── " else "├── ") ++ nm]
     | .dir nm cs2 =>
        (pref ++ (if rest.isEmpty then "└── " else "├── ") ++ nm ++ "/") ::
          asciiChildrenJ (pref ++ (if rest.isEmpty then "    " else "│   ")) cs2) ++
    asciiChildrenJ pref rest

end

/-- The first output line of the mapper for a root node: its basename, with
the directory marker for a directory root. -/
def rootLabel : FTree → String
  | .file n => n
  | .dir n _ => n ++ "/"

/-! ## Lemmas about the splitting primitives -/

theorem pySplitlinesAux_flatten (acc l : List Char) :
    (pySplitlinesAux true acc l).flatten = acc.reverse ++ l := by
  induction acc, l using pySplitlinesAux.induct true with
  | case1 acc ha => simp_all [pySplitlinesAux]
  | case2 acc ha => simp_all [pySplitlinesAux]
  | case3 acc c hc ih => simp_all [pySplitlinesAux]
  | case4 acc c hc ih => simp_all [pySplitlinesAux]
  | case5 acc c c2 rest hc ih =>
      obtain ⟨h1, h2⟩ := hc
      subst h1; subst h2
      simp_all [pySplitlinesAux]
  | case6 acc c c2 rest hc hbrk ih =>
      rw [pySplitlinesAux.eq_3, if_neg hc, if_pos hbrk]
      simp [ih]
  | case7 acc c c2 rest hc hbrk ih =>
      rw [pySplitlinesAux.eq_3, if_neg hc, if_neg hbrk]
      simp [ih]

/-- Splitting with `keepends=True` loses nothing: the lines concatenate back
to the original string. -/
theorem pySplitlinesKeep_flatten (l : List Char) : (pySplitlinesKeep l).flatten = l := by
  simpa using pySplitlinesAux_flatten [] l

theorem pySplitlinesAux_no_break (acc l : List Char)
    (hacc : ∀ c ∈ acc, isPyLineBreak c = false) :
    ∀ ln ∈ pySplitlinesAux false acc l, ∀ c ∈ ln, isPyLineBreak c = false := by
  induction acc, l using pySplitlinesAux.induct false with
  | case1 acc ha => simp [pySplitlinesAux, ha]
  | case2 acc ha =>
      intro ln hln c hc
      rw [pySplitlinesAux.eq_1, if_neg ha, List.mem_singleton] at hln
      subst hln
      exact hacc c (List.mem_reverse.mp hc)
  | case3 acc c hc ih =>
      intro ln hln d hd
      rw [pySplitlinesAux.eq_2, if_pos hc] at hln
      rcases List.mem_cons.mp hln with h | h
      · subst h
        simp at hd
        exact hacc d hd
      · exact ih (by simp) ln h d hd
  | case4 acc c hc ih =>
      intro ln hln d hd
      rw [pySplitlinesAux.eq_2, if_neg hc] at hln
      refine ih ?_ ln hln d hd
      intro e he
      rcases List.mem_cons.mp he with h | h
      · subst h; simpa using hc
      · exact hacc e h
  | case5 acc c c2 rest hc ih =>
      intro ln hln d hd
      rw [pySplitlinesAux.eq_3, if_pos hc] at hln
      rcases List.mem_cons.mp hln with h | h
      · subst h
        simp at hd
        exact hacc d hd
      · exact ih (by simp) ln h d hd
  | case6 acc c c2 rest hc hbrk ih =>
      intro ln hln d hd
      rw [pySplitlinesAux.eq_3, if_neg hc, if_pos hbrk] at hln
      rcases List.mem_cons.mp hln with h | h
      · subst h
        simp at hd
        exact hacc d hd
      · exact ih (by simp) ln h d hd
  | case7 acc c c2 rest hc hbrk ih =>
      intro ln hln d hd
      rw [pySplitlinesAux.eq_3, if_neg hc, if_neg hbrk] at hln
      refine ih ?_ ln hln d hd
      intro e he
      rcases List.mem_cons.mp he with h | h
      · subst h; simpa using hbrk
      · exact hacc e h

theorem getLast?_cons_ne {α : Type} (a : α) (l : List α) (h : l ≠ []) :
    (a :: l).getLast? = l.getLast? := by
  cases l with
  | nil => exact absurd rfl h
  | cons b m => exact List.getLast?_cons_cons

/-- Appending a final `\n` to a string whose last character is not already a
line terminator does not change its `splitlines()`: the terminator only
closes the final line that was otherwise unterminated. -/
theorem pySplitlinesAux_append_newline (acc l : List Char) (hne : l ≠ [])
    (hlast : ∀ c, l.getLast? = some c → isPyLineBreak c = false) :
    pySplitlinesAux false acc (l ++ ['\n']) = pySplitlinesAux false acc l := by
  induction acc, l using pySplitlinesAux.induct false with
  | case1 acc ha => exact absurd rfl hne
  | case2 acc ha => exact absurd rfl hne
  | case3 acc c hc _ih =>
      have h1 := hlast c rfl
      rw [hc] at h1
      exact absurd h1 (by simp)
  | case4 acc c hc _ih =>
      have hcb : isPyLineBreak c = false := hlast c rfl
      have hcr : c ≠ '\x0d' := by
        intro h
        rw [h] at hcb
        exact absurd hcb (by decide)
      simp [pySplitlinesAux, hcb, hcr]
      decide
  | case5 acc c c2 rest hc ih =>
      obtain ⟨h1, h2⟩ := hc
      subst h1; subst h2
      rcases eq_or_ne rest [] with hr | hr
      · subst hr
        have h2 := hlast '\n' (by decide)
        exact absurd h2 (by decide)
      · have hl2 : ∀ d, rest.getLast? = some d → isPyLineBreak d = false := by
          intro d hd
          apply hlast
          rw [getLast?_cons_ne _ _ (by simp), getLast?_cons_ne _ _ hr]
          exact hd
        simp only [List.cons_append, pySplitlinesAux.eq_3]
        rw [ih hr hl2]
        simp
  | case6 acc c c2 rest hc hbrk ih =>
      have hr : (c2 :: rest) ≠ [] := by simp
      have hl2 : ∀ d, (c2 :: rest).getLast? = some d → isPyLineBreak d = false := by
        intro d hd
        apply hlast
        rw [getLast?_cons_ne _ _ hr]
        exact hd
      simp only [List.cons_append, pySplitlinesAux.eq_3, if_neg hc, if_pos hbrk]
      rw [← List.cons_append, ih hr hl2]
  | case7 acc c c2 rest hc hbrk ih =>
      have hr : (c2 :: rest) ≠ [] := by simp
      have hl2 : ∀ d, (c2 :: rest).getLast? = some d → isPyLineBreak d = false := by
        intro d hd
        apply hlast
        rw [getLast?_cons_ne _ _ hr]
        exact hd
      simp only [List.cons_append, pySplitlinesAux.eq_3, if_neg hc, if_neg hbrk]
      rw [← List.cons_append, ih hr hl2]

/-! ## Lemmas about the numbering step of the reader -/

theorem digitChar_not_break (m : Nat) : isPyLineBreak (Nat.digitChar m) = false := by
  rcases m with _|_|_|_|_|_|_|_|_|_|_|_|_|_|_|_|m
  all_goals try decide
  unfold Nat.digitChar
  repeat rw [if_neg (by omega)]
  decide

theorem toDigitsCore_not_break (f : Nat) : ∀ (n : Nat) (acc : List Char),
    (∀ c ∈ acc, isPyLineBreak c = false) →
    ∀ c ∈ Nat.toDigitsCore 10 f n acc, isPyLineBreak c = false := by
  induction f with
  | zero =>
      intro n acc h c hc
      rw [Nat.toDigitsCore] at hc
      exact h c hc
  | succ f ih =>
      intro n acc h c hc
      rw [Nat.toDigitsCore] at hc
      split at hc
      · rcases List.mem_cons.mp hc with h1 | h1
        · subst h1; exact digitChar_not_break _
        · exact h c h1
      · refine ih _ _ ?_ c hc
        intro e he
        rcases List.mem_cons.mp he with h1 | h1
        · subst h1; exact digitChar_not_break _
        · exact h e h1

/-- No character of the decimal representation of a number is a line
terminator. -/
theorem repr_not_break (n : Nat) : ∀ c ∈ (Nat.repr n).data, isPyLineBreak c = false := by
  have h : (Nat.repr n).data = Nat.toDigitsCore 10 (n + 1) n [] := rfl
  rw [h]
  exact toDigitsCore_not_break _ _ _ (by simp)

theorem numberLines_ne_nil (i : Nat) (l : List Char) (ls : List (List Char)) :
    numberLines i (l :: ls) ≠ [] := by
  cases ls <;> simp [numberLines]

theorem numberLines_getLast_not_break (ls : List (List Char))
    (hls : ∀ l ∈ ls, ∀ c ∈ l, isPyLineBreak c = false) :
    ∀ (i : Nat) (c : Char), (numberLines i ls).getLast? = some c → isPyLineBreak c = false := by
  induction ls with
  | nil =>
      intro i c hc
      simp [numberLines] at hc
  | cons l ls ih =>
      intro i c hc
      cases ls with
      | nil =>
          rw [numberLines.eq_2] at hc
          rcases eq_or_ne l [] with hl | hl
          · subst hl
            rw [show (':' :: ' ' :: ([] : List Char)) = [':', ' '] by rfl,
              List.getLast?_append] at hc
            simp at hc
            subst hc
            decide
          · rw [show (':' :: ' ' :: l) = [':', ' '] ++ l by rfl, List.getLast?_append,
              List.getLast?_append] at hc
            obtain ⟨d, hd⟩ := Option.isSome_iff_exists.mp (List.getLast?_isSome.mpr hl)
            rw [hd] at hc
            simp at hc
            subst hc
            exact hls l (by simp) d (List.mem_of_mem_getLast? hd)
      | cons l2 ls2 =>
          rw [numberLines.eq_3] at hc
          have hrec := numberLines_ne_nil (i + 1) l2 ls2
          obtain ⟨d, hd⟩ := Option.isSome_iff_exists.mp (List.getLast?_isSome.mpr hrec)
          rw [show (':' :: ' ' :: (l ++ '\n' :: numberLines (i + 1) (l2 :: ls2)))
                = [':', ' '] ++ l ++ ('\n' :: numberLines (i + 1) (l2 :: ls2)) by simp,
            List.getLast?_append, List.getLast?_append,
            getLast?_cons_ne _ _ hrec, hd] at hc
          simp at hc
          subst hc
          exact ih (fun x hx => hls x (by simp [hx])) (i + 1) d hd

theorem numberLines_chars (ls : List (List Char))
    (hls : ∀ l ∈ ls, ∀ c ∈ l, isPyLineBreak c = false) :
    ∀ (i : Nat), ∀ c ∈ numberLines i ls, isPyLineBreak c = false ∨ c = '\n' := by
  induction ls with
  | nil => intro i c hc; simp [numberLines] at hc
  | cons l ls ih =>
      intro i c hc
      cases ls with
      | nil =>
          rw [numberLines.eq_2] at hc
          rcases List.mem_append.mp hc with h | h
          · exact Or.inl (repr_not_break _ c h)
          · rcases List.mem_cons.mp h with h1 | h1
            · subst h1; exact Or.inl (by decide)
            · rcases List.mem_cons.mp h1 with h2 | h2
              · subst h2; exact Or.inl (by decide)
              · exact Or.inl (hls l (by simp) c h2)
      | cons l2 ls2 =>
          rw [numberLines.eq_3] at hc
          rcases List.mem_append.mp hc with h | h
          · exact Or.inl (repr_not_break _ c h)
          · rcases List.mem_cons.mp h with h1 | h1
            · subst h1; exact Or.inl (by decide)
            · rcases List.mem_cons.mp h1 with h2 | h2
              · subst h2; exact Or.inl (by decide)
              · rcases List.mem_append.mp h2 with h3 | h3
                · exact Or.inl (hls l (by simp) c h3)
                · rcases List.mem_cons.mp h3 with h4 | h4
                  · subst h4; exact Or.inr rfl
                  · exact ih (fun x hx => hls x (by simp [hx])) (i + 1) c h4

/-- The final character of a string is a Python line terminator. -/
def lastCharIsBreak (s : String) : Bool :=
  (s.data.getLast?.map isPyLineBreak).getD false

/-- Every line-terminator character occurring in the string is `\n`. -/
def onlyNLBreaks (s : String) : Bool :=
  s.data.all (fun c => !(isPyLineBreak c) || c = '\n')

/-- C8: for a readable file and `max_chars = k` within the file's length, the
reader returns the prefix of exactly `k` characters of the raw content; the
truncation is applied to the raw content first, and when line numbers are
requested they are injected afterwards, into the already-truncated content. -/
theorem reader_truncates_before_numbering (C : String) (k : Nat) (hk : k ≤ C.length) :
    (fileReaderRun C (some (k : Int)) false).length = k
    ∧ fileReaderRun C (some (k : Int)) false = ⟨C.data.take k⟩
    ∧ fileReaderRun C (some (k : Int)) true = fileReaderRun ⟨C.data.take k⟩ none true := by
  have hsl : pySliceTo (k : Int) C.data = C.data.take k := by
    unfold pySliceTo
    rw [if_pos (Int.natCast_nonneg k)]
    simp
  have hk2 : k ≤ C.data.length := hk
  refine ⟨?_, ?_, ?_⟩
  · show (pySliceTo (k : Int) C.data).length = k
    rw [hsl, List.length_take]
    omega
  · show (⟨pySliceTo (k : Int) C.data⟩ : String) = ⟨C.data.take k⟩
    rw [hsl]
  · show (⟨numberLines 0 (pySplitlinesAux false [] (pySliceTo (k : Int) C.data))⟩ : String)
        = ⟨numberLines 0 (pySplitlinesAux false [] (⟨C.data.take k⟩ : String).data)⟩
    rw [hsl]

/-- Witness for C8 at a concrete file content and limit. -/
theorem reader_truncates_before_numbering_witness :
    (7 : Nat) ≤ ("Hello\nWorld" : String).length
    ∧ (fileReaderRun "Hello\nWorld" (some ((7 : Nat) : Int)) false).length = 7
    ∧ fileReaderRun "Hello\nWorld" (some ((7 : Nat) : Int)) false
        = ⟨("Hello\nWorld" : String).data.take 7⟩
    ∧ fileReaderRun "Hello\nWorld" (some ((7 : Nat) : Int)) true
        = fileReaderRun ⟨("Hello\nWorld" : String).data.take 7⟩ none true :=
  ⟨by decide, (reader_truncates_before_numbering "Hello\nWorld" 7 (by decide)).1,
   (reader_truncates_before_numbering "Hello\nWorld" 7 (by decide)).2.1,
   (reader_truncates_before_numbering "Hello\nWorld" 7 (by decide)).2.2⟩

/-- C10: with line numbering on, the reader's output never ends in a line
terminator (in particular, the trailing newline of the file produces no output
and is dropped), and every line terminator remaining in the output is the `\n`
written by the join, because the content is split into terminator-free lines
and rejoined with `\n`. -/
theorem reader_numbered_output_newlines (C : String) :
    lastCharIsBreak (fileReaderRun C none true) = false
    ∧ onlyNLBreaks (fileReaderRun C none true) = true
    ∧ (C.data ≠ [] → lastCharIsBreak C = false →
        fileReaderRun (C ++ "\n") none true = fileReaderRun C none true) := by
  have hlines := pySplitlinesAux_no_break [] C.data (by simp)
  refine ⟨?_, ?_, ?_⟩
  · show ((numberLines 0 (pySplitlinesAux false [] C.data)).getLast?.map
        isPyLineBreak).getD false = false
    cases hg : (numberLines 0 (pySplitlinesAux false [] C.data)).getLast? with
    | none => rfl
    | some c =>
        simpa using numberLines_getLast_not_break _ hlines 0 c hg
  · show (numberLines 0 (pySplitlinesAux false [] C.data)).all
        (fun c => !(isPyLineBreak c) || c = '\n') = true
    rw [List.all_eq_true]
    intro c hc
    rcases numberLines_chars _ hlines 0 c hc with h | h
    · simp [h]
    · simp [h]
  · intro hne hlast
    show (⟨numberLines 0 (pySplitlinesAux false [] (C ++ "\n").data)⟩ : String)
        = ⟨numberLines 0 (pySplitlinesAux false [] C.data)⟩
    rw [String.data_append, show ("\n" : String).data = ['\n'] from rfl,
      pySplitlinesAux_append_newline [] C.data hne ?_]
    intro c hc
    unfold lastCharIsBreak at hlast
    rw [hc] at hlast
    simpa using hlast

/-- Witness for C10 at concrete file contents (one with assorted terminators,
one exercising the trailing-newline case). -/
theorem reader_numbered_output_newlines_witness :
    lastCharIsBreak (fileReaderRun "a\rb\x0bc\n" none true) = false
    ∧ onlyNLBreaks (fileReaderRun "a\rb\x0bc\n" none true) = true
    ∧ ("ab" : String).data ≠ []
    ∧ lastCharIsBreak "ab" = false
    ∧ fileReaderRun ("ab" ++ "\n") none true = fileReaderRun "ab" none true :=
  ⟨(reader_numbered_output_newlines "a\rb\x0bc\n").1,
   (reader_numbered_output_newlines "a\rb\x0bc\n").2.1,
   by decide, by decide,
   (reader_numbered_output_newlines "ab").2.2 (by decide) (by decide)⟩

/-! ## Lemmas about the file-system model -/

theorem getFile_setFile (fs : FS) (p c : String) : (fs.setFile p c).getFile p = some c := by
  simp [FS.getFile, FS.setFile, List.lookup]

theorem getFile_setFile_ne (fs : FS) (p q c : String) (h : q ≠ p) :
    (fs.setFile p c).getFile q = fs.getFile q := by
  have hb : (q == p) = false := beq_eq_false_iff_ne.mpr h
  simp [FS.getFile, FS.setFile, List.lookup, hb]

/-- The file system holding the three-line sample file of the specification. -/
def sampleFS : FS := ⟨[("f.txt", "Line1\nLine2\nLine3\n")], []⟩

/-- An empty file system. -/
def emptyFS : FS := ⟨[], []⟩

/-- The failure-string convention of the tools: the message begins `Error:`. -/
def startsWithError (s : String) : Bool := decide (s.data.take 6 = "Error:".data)

/-- C1: for an existing file, insert with a 1-based start line splices the new
content's lines (split preserving terminators) immediately before that line,
clamped to end-of-file when the start line exceeds the line count: the
resulting content is the first `min (start-1) (line count)` lines, then the
new content verbatim, then the remaining lines.  The second conjunct is the
spec's example: inserting `"Inserted\n"` at line 2 of
`"Line1\nLine2\nLine3\n"` yields `"Line1\nInserted\nLine2\nLine3\n"`. -/
theorem insert_splices_before_line (fs : FS) (p C c : String) (sl : Int)
    (hf : fs.getFile p = some C) (hsl : 1 ≤ sl) :
    (fileEditorRun fs p "insert" (some c) (some sl) none).2.getFile p
      = some ⟨((pyReadlines C).take (min (sl - 1).toNat (pyReadlines C).length)).flatten
          ++ c.data
          ++ ((pyReadlines C).drop (min (sl - 1).toNat (pyReadlines C).length)).flatten⟩
    ∧ (fileEditorRun sampleFS "f.txt" "insert" (some "Inserted\n") (some 2) none).2.getFile "f.txt"
      = some "Line1\nInserted\nLine2\nLine3\n" := by
  constructor
  · have hfile : fs.isfile p = true := by simp [FS.isfile, hf]
    have h1 : ¬ (sl < 1) := by omega
    have hidx : (if sl - 1 > ((pyReadlines C).length : Int) then ((pyReadlines C).length : Int)
        else sl - 1).toNat = min (sl - 1).toNat (pyReadlines C).length := by
      split <;> omega
    simp only [fileEditorRun]
    simp [hfile, hf, h1, hidx, getFile_setFile, pySplitlinesKeep, pySplitlinesAux_flatten]
  · decide

/-- Witness for C1: the sample insert of the specification. -/
theorem insert_splices_before_line_witness :
    sampleFS.getFile "f.txt" = some "Line1\nLine2\nLine3\n"
    ∧ (1 : Int) ≤ 2
    ∧ (fileEditorRun sampleFS "f.txt" "insert" (some "Inserted\n") (some 2) none).2.getFile "f.txt"
        = some "Line1\nInserted\nLine2\nLine3\n" :=
  ⟨by decide, by decide,
   (insert_splices_before_line sampleFS "f.txt" "Line1\nLine2\nLine3\n" "Inserted\n" 2
      (by decide) (by decide)).2⟩

/-- C2: for an existing file and `1 ≤ start ≤ end ≤ line count`, update
removes lines `start..end` inclusive and replaces them wholesale by the new
content: the result is the first `start - 1` lines, the new content verbatim,
then the lines after line `end`; the success message cites the range.  The
final conjunct is the spec's example: replacing lines 1..2 of
`"Line1\nLine2\nLine3\n"` with `"New Line1\nNew Line2\n"` yields
`"New Line1\nNew Line2\nLine3\n"`. -/
theorem update_replaces_range (fs : FS) (p C c : String) (sl el : Int)
    (hf : fs.getFile p = some C) (h1 : 1 ≤ sl) (h2 : sl ≤ el)
    (h3 : el ≤ ((pyReadlines C).length : Int)) :
    (fileEditorRun fs p "update" (some c) (some sl) (some el)).2.getFile p
      = some ⟨((pyReadlines C).take (sl - 1).toNat).flatten ++ c.data
          ++ ((pyReadlines C).drop el.toNat).flatten⟩
    ∧ (fileEditorRun fs p "update" (some c) (some sl) (some el)).1
      = "Successfully updated lines " ++ toString sl ++ " to " ++ toString el
          ++ " in file '" ++ p ++ "'."
    ∧ (fileEditorRun sampleFS "f.txt" "update" (some "New Line1\nNew Line2\n")
          (some 1) (some 2)).2.getFile "f.txt"
      = some "New Line1\nNew Line2\nLine3\n" := by
  have hfile : fs.isfile p = true := by simp [FS.isfile, hf]
  have hv : ¬ (sl < 1 ∨ el < sl) := by omega
  have hr : ¬ (el > ((pyReadlines C).length : Int)) := by omega
  refine ⟨?_, ?_, by decide⟩
  · simp only [fileEditorRun]
    simp [hfile, hf, hv, hr, getFile_setFile, pySplitlinesKeep, pySplitlinesAux_flatten]
  · simp only [fileEditorRun]
    simp [hfile, hf, hv, hr]

/-- Witness for C2: the sample replacement of the specification. -/
theorem update_replaces_range_witness :
    sampleFS.getFile "f.txt" = some "Line1\nLine2\nLine3\n"
    ∧ (1 : Int) ≤ 1 ∧ (1 : Int) ≤ 2
    ∧ (2 : Int) ≤ ((pyReadlines "Line1\nLine2\nLine3\n").length : Int)
    ∧ (fileEditorRun sampleFS "f.txt" "update" (some "New Line1\nNew Line2\n")
          (some 1) (some 2)).2.getFile "f.txt"
      = some "New Line1\nNew Line2\nLine3\n" :=
  ⟨by decide, by decide, by decide, by decide,
   (update_replaces_range sampleFS "f.txt" "Line1\nLine2\nLine3\n" "New Line1\nNew Line2\n"
      1 2 (by decide) (by decide) (by decide) (by decide)).2.2⟩

/-- C3: for an existing file, any update request whose end line exceeds the
file's line count returns a failure string with the `Error:` prefix and
leaves the whole file system untouched, whatever the content and start-line
arguments are (the missing-content, missing-bound, invalid-bound and
out-of-range checks all precede the write). -/
theorem update_end_out_of_range (fs : FS) (p C : String) (c? : Option String)
    (sl? : Option Int) (el : Int) (hf : fs.getFile p = some C)
    (he : ((pyReadlines C).length : Int) < el) :
    (fileEditorRun fs p "update" c? sl? (some el)).2 = fs
    ∧ startsWithError (fileEditorRun fs p "update" c? sl? (some el)).1 = true := by
  have hfile : fs.isfile p = true := by simp [FS.isfile, hf]
  have hr : el > ((pyReadlines C).length : Int) := by omega
  rcases c? with _ | c
  · constructor
    · simp only [fileEditorRun]
      simp [hfile]
    · simp only [fileEditorRun]
      simp [hfile]
      decide
  · rcases sl? with _ | sl
    · constructor
      · simp only [fileEditorRun]
        simp [hfile]
      · simp only [fileEditorRun]
        simp [hfile]
        decide
    · by_cases hv : sl < 1 ∨ el < sl
      · constructor
        · simp only [fileEditorRun]
          simp [hfile, hf, hv]
        · simp only [fileEditorRun]
          simp [hfile, hf, hv]
          decide
      · constructor
        · simp only [fileEditorRun]
          simp [hfile, hf, hv, hr]
        · simp only [fileEditorRun]
          simp [hfile, hf, hv, hr, startsWithError]

/-- Witness for C3: end line 9 on the three-line sample file. -/
theorem update_end_out_of_range_witness :
    sampleFS.getFile "f.txt" = some "Line1\nLine2\nLine3\n"
    ∧ ((pyReadlines "Line1\nLine2\nLine3\n").length : Int) < 9
    ∧ (fileEditorRun sampleFS "f.txt" "update" (some "x") (some 1) (some 9)).2 = sampleFS
    ∧ startsWithError (fileEditorRun sampleFS "f.txt" "update" (some "x") (some 1) (some 9)).1
        = true :=
  ⟨by decide, by decide,
   (update_end_out_of_range sampleFS "f.txt" "Line1\nLine2\nLine3\n" (some "x") (some 1) 9
      (by decide) (by decide)).1,
   (update_end_out_of_range sampleFS "f.txt" "Line1\nLine2\nLine3\n" (some "x") (some 1) 9
      (by decide) (by decide)).2⟩

theorem pexists_setFile (fs : FS) (p c q : String) (h : fs.pexists q = true) :
    (fs.setFile p c).pexists q = true := by
  simp only [FS.pexists, FS.isfile, FS.getFile, FS.setFile, FS.isdir, Bool.or_eq_true] at h ⊢
  rcases h with h1 | h1
  · rw [List.lookup_cons]
    cases hqp : q == p
    · simp [hqp, h1]
    · simp [hqp]
  · simp [List.mem_of_elem_eq_true h1]

theorem pexists_makedirs_self (fs : FS) (d : String) (hd : d ≠ "") :
    (fs.makedirs d).pexists d = true := by
  simp only [FS.pexists, FS.isdir, FS.makedirs, Bool.or_eq_true]
  right
  refine List.elem_eq_true_of_mem ?_
  unfold pathAncestors
  simp [hd]

/-- C4: the new (create) action fails with the exists error and leaves the
file system exactly unchanged when anything exists at the path; when nothing
exists there it reports success, writes the given content verbatim (the empty
string when content is omitted), ensures the parent directory path exists,
and leaves every other file untouched. -/
theorem new_creates_or_rejects (fs : FS) (p : String) (c? : Option String) :
    (fs.pexists p = true →
      fileEditorRun fs p "new" c? none none = ("Error: File \'" ++ p ++ "\' already exists.", fs))
    ∧ (fs.pexists p = false →
      (fileEditorRun fs p "new" c? none none).1 = "Successfully created new file \'" ++ p ++ "\'."
      ∧ (fileEditorRun fs p "new" c? none none).2.getFile p = some (c?.getD "")
      ∧ (dirname p ≠ "" → (fileEditorRun fs p "new" c? none none).2.pexists (dirname p) = true)
      ∧ (∀ q, q ≠ p → (fileEditorRun fs p "new" c? none none).2.getFile q = fs.getFile q)) := by
  constructor
  · intro hex
    simp only [fileEditorRun]
    simp [hex]
  · intro hex
    have hrun : fileEditorRun fs p "new" c? none none
        = ("Successfully created new file \'" ++ p ++ "\'.",
           (if dirname p ≠ "" ∧ ¬(fs.pexists (dirname p)) then fs.makedirs (dirname p)
            else fs).setFile p (c?.getD "")) := by
      simp only [fileEditorRun]
      simp [hex]
    refine ⟨by rw [hrun], by rw [hrun]; exact getFile_setFile _ _ _, ?_, ?_⟩
    · intro hd
      rw [hrun]
      by_cases hpe : fs.pexists (dirname p) = true
      · rw [if_neg (by simp [hpe])]
        exact pexists_setFile _ _ _ _ hpe
      · rw [if_pos ⟨hd, by simp [hpe]⟩]
        exact pexists_setFile _ _ _ _ (pexists_makedirs_self fs _ hd)
    · intro q hq
      rw [hrun]
      have hfiles : ((if dirname p ≠ "" ∧ ¬(fs.pexists (dirname p)) then fs.makedirs (dirname p)
          else fs)).files = fs.files := by
        split <;> rfl
      simp only [FS.setFile, FS.getFile, List.lookup_cons]
      rw [show (q == p) = false from beq_eq_false_iff_ne.mpr hq]
      dsimp only []
      rw [hfiles]

/-- Witness for C4: create on the sample file (occupied path) and create at a
fresh nested path on the empty file system. -/
theorem new_creates_or_rejects_witness :
    sampleFS.pexists "f.txt" = true
    ∧ fileEditorRun sampleFS "f.txt" "new" (some "x") none none
        = ("Error: File 'f.txt' already exists.", sampleFS)
    ∧ emptyFS.pexists "d/e/new.txt" = false
    ∧ (fileEditorRun emptyFS "d/e/new.txt" "new" (some "hi") none none).2.getFile "d/e/new.txt"
        = some "hi"
    ∧ (dirname "d/e/new.txt" ≠ "" →
        (fileEditorRun emptyFS "d/e/new.txt" "new" (some "hi") none none).2.pexists
          (dirname "d/e/new.txt") = true) :=
  ⟨by decide,
   (new_creates_or_rejects sampleFS "f.txt" (some "x")).1 (by decide),
   by decide,
   ((new_creates_or_rejects emptyFS "d/e/new.txt" (some "hi")).2 (by decide)).2.1,
   ((new_creates_or_rejects emptyFS "d/e/new.txt" (some "hi")).2 (by decide)).2.2.1⟩

/-- C9 (the pass-through claim, refuted by the directory creator): the
asynchronous entry point of `CreateDirectoryTool` passes the keyword argument
`exist_ok` to a `_run` that does not accept it, so the delegation call raises
`TypeError` instead of returning `_run`'s string: on every input `_arun`
differs from the direct pass-through, while `_run` itself succeeds. -/
theorem createDirectory_arun_type_error :
    createDirectoryArun emptyFS "new_dir"
      = .error "TypeError: _run() got an unexpected keyword argument 'exist_ok'"
    ∧ (createDirectoryRun emptyFS "new_dir").1 = "Successfully created directory 'new_dir'."
    ∧ ∀ (fs : FS) (d : String), createDirectoryArun fs d ≠ .ok (createDirectoryRun fs d) := by
  refine ⟨rfl, rfl, ?_⟩
  intro fs d
  simp [createDirectoryArun, createDirectoryArunKwargs, createDirectoryRunParams]

/-! ## Lemmas about the two renderings of the mapper -/

theorem FTree.sizeOfInduction {P : FTree → Prop}
    (h : ∀ t : FTree, (∀ c : FTree, sizeOf c < sizeOf t → P c) → P t) :
    ∀ t, P t := fun t => h t fun c hc => FTree.sizeOfInduction h c
termination_by t => sizeOf t
decreasing_by exact hc

theorem mem_visibleSorted_sizeOf_lt (sh : Bool) (n : String) (cs : List FTree)
    (c : FTree) (hc : c ∈ visibleSorted sh cs) : sizeOf c < sizeOf (FTree.dir n cs) := by
  have h1 : c ∈ cs := List.mem_of_mem_filter ((List.mem_insertionSort nameLE).mp hc)
  have h2 := List.sizeOf_lt_of_mem h1
  simp only [FTree.dir.sizeOf_spec]
  omega

theorem jsonChildren_isEmpty (es : List FTree) (sh : Bool) (d : Option Nat) (l : Nat) :
    (jsonChildren es sh d l).isEmpty = es.isEmpty := by
  cases es <;> simp [jsonChildren]

theorem buildJsonTree_dir (nm : String) (cs2 : List FTree) (sh : Bool) (d : Option Nat) (l : Nat) :
    buildJsonTree (.dir nm cs2) sh d l
      = .dir nm (if depthStop d l then [] else jsonChildren (visibleSorted sh cs2) sh d l) := by
  rw [buildJsonTree]
  split <;> rfl

theorem buildJsonTree_name (t : FTree) (sh : Bool) (d : Option Nat) (l : Nat) :
    (buildJsonTree t sh d l).name = t.name := by
  cases t with
  | file n => rw [buildJsonTree]; rfl
  | dir n cs => rw [buildJsonTree_dir]; rfl

/-- The two renderings share one traversal: the ascii tree is exactly the
ascii rendering of the json document (same filtering, same sorting, same
depth truncation, one ascii line per json node). -/
theorem buildAscii_eq_ofJson (t : FTree) : ∀ (pref : String) (sh : Bool)
    (depth : Option Nat) (level : Nat),
    buildAsciiTree t pref sh depth level = asciiOfJson pref (buildJsonTree t sh depth level) := by
  induction t using FTree.sizeOfInduction with
  | h t ih =>
    intro pref sh depth level
    cases t with
    | file n => simp [buildAsciiTree, buildJsonTree, asciiOfJson]
    | dir n cs =>
      by_cases hstop : depthStop depth level = true
      · simp [buildAsciiTree, buildJsonTree, asciiOfJson, asciiChildrenJ, hstop]
      · simp only [buildAsciiTree, buildJsonTree, if_neg hstop, asciiOfJson]
        congr 1
        have hsub : ∀ c ∈ visibleSorted sh cs, sizeOf c < sizeOf (FTree.dir n cs) :=
          fun c hc => mem_visibleSorted_sizeOf_lt sh n cs c hc
        generalize visibleSorted sh cs = es at hsub
        induction es with
        | nil => rw [asciiEntries, jsonChildren, asciiChildrenJ]
        | cons c rest ihes =>
          have hc : sizeOf c < sizeOf (FTree.dir n cs) := hsub c (by simp)
          have hrest : ∀ x ∈ rest, sizeOf x < sizeOf (FTree.dir n cs) :=
            fun x hx => hsub x (by simp [hx])
          cases c with
          | file nm =>
            simp only [asciiEntries, jsonChildren, asciiChildrenJ, buildJsonTree,
              jsonChildren_isEmpty]
            rw [ihes hrest]
          | dir nm cs2 =>
            simp only [asciiEntries, jsonChildren, asciiChildrenJ, buildJsonTree_dir,
              jsonChildren_isEmpty]
            rw [ihes hrest, ih (FTree.dir nm cs2) hc
              (pref ++ (if rest.isEmpty then "    " else "│   ")) sh depth (level + 1),
              buildJsonTree_dir]
            simp [asciiOfJson]

theorem JNode.sizeOfInductionOn {P : JNode → Prop}
    (h : ∀ j : JNode, (∀ c : JNode, sizeOf c < sizeOf j → P c) → P j) :
    ∀ j, P j := fun j => h j fun c hc => JNode.sizeOfInductionOn h c
termination_by j => sizeOf j
decreasing_by exact hc

theorem asciiChildrenJ_length_of (pref : String) : ∀ cs : List JNode,
    (∀ c ∈ cs, ∀ pref2 : String, (asciiOfJson pref2 c).length = (jsonNames c).length) →
    (asciiChildrenJ pref cs).length = (jsonNamesList cs).length := by
  intro cs
  induction cs with
  | nil => intro _; rw [asciiChildrenJ, jsonNamesList]
  | cons c rest ih =>
      intro hall
      have hrest : ∀ x ∈ rest, ∀ pref2 : String,
          (asciiOfJson pref2 x).length = (jsonNames x).length :=
        fun x hx => hall x (List.mem_cons_of_mem _ hx)
      cases c with
      | file nm =>
          simp only [asciiChildrenJ, jsonNamesList, jsonNames, List.length_append]
          rw [ih hrest]
          simp
      | dir nm cs2 =>
          simp only [asciiChildrenJ, jsonNamesList, jsonNames, List.length_append]
          rw [ih hrest]
          have h2 := hall (JNode.dir nm cs2) (by simp)
            (pref ++ (if rest.isEmpty then "    " else "│   "))
          simp only [asciiOfJson, jsonNames, List.length_cons] at h2
          simp [h2]

/-- The ascii rendering of a json document has exactly one line per name the
document lists. -/
theorem asciiOfJson_length (j : JNode) : ∀ pref : String,
    (asciiOfJson pref j).length = (jsonNames j).length := by
  induction j using JNode.sizeOfInductionOn with
  | h j ih =>
    intro pref
    cases j with
    | file n => simp [asciiOfJson, jsonNames]
    | dir n cs =>
      simp only [asciiOfJson, jsonNames, List.length_cons]
      congr 1
      refine asciiChildrenJ_length_of pref cs ?_
      intro c hcc pref2
      refine ih c ?_ pref2
      have := List.sizeOf_lt_of_mem hcc
      simp only [JNode.dir.sizeOf_spec]
      omega

/-- C7: for every tree and every fixed choice of the hidden flag and depth,
the ascii and json renderings traverse, filter, sort and truncate
identically: the ascii output is the ascii rendering of the json document,
with exactly one line per name the json document reaches (so both encodings
yield the same reachable names). -/
theorem ascii_json_same_traversal (t : FTree) (pref : String) (sh : Bool)
    (depth : Option Nat) (level : Nat) :
    buildAsciiTree t pref sh depth level = asciiOfJson pref (buildJsonTree t sh depth level)
    ∧ (buildAsciiTree t pref sh depth level).length
        = (jsonNames (buildJsonTree t sh depth level)).length :=
  ⟨buildAscii_eq_ofJson t pref sh depth level,
   by rw [buildAscii_eq_ofJson t pref sh depth level]; exact asciiOfJson_length _ _⟩

theorem mem_namesUpToList_of (m : Nat) : ∀ (cs : List FTree) (c : FTree), c ∈ cs →
    ∀ x ∈ treeNamesUpTo m c, x ∈ namesUpToList m cs := by
  intro cs
  induction cs with
  | nil => simp
  | cons d rest ih =>
      intro c hc x hx
      rw [namesUpToList]
      rcases List.mem_cons.mp hc with h | h
      · subst h; exact List.mem_append_left _ hx
      · exact List.mem_append_right _ (ih c h x hx)

theorem mem_jsonNamesList_jsonChildren (sh : Bool) (d : Option Nat) (l : Nat) :
    ∀ es : List FTree, ∀ x ∈ jsonNamesList (jsonChildren es sh d l),
      ∃ c ∈ es, x ∈ jsonNames (buildJsonTree c sh d (l + 1)) := by
  intro es
  induction es with
  | nil => simp [jsonChildren, jsonNamesList]
  | cons c rest ih =>
      intro x hx
      rw [jsonChildren, jsonNamesList] at hx
      rcases List.mem_append.mp hx with h | h
      · exact ⟨c, by simp, h⟩
      · obtain ⟨c2, hc2, hx2⟩ := ih x h
        exact ⟨c2, by simp [hc2], hx2⟩

/-- Every name the depth-limited json document lists is the name of a node in
the first `max 1 (k + 1 - level)` levels of the subtree. -/
theorem jsonNames_depth_sub (t : FTree) : ∀ (sh : Bool) (k level : Nat),
    ∀ x ∈ jsonNames (buildJsonTree t sh (some k) level),
      x ∈ treeNamesUpTo (max 1 (k + 1 - level)) t := by
  induction t using FTree.sizeOfInduction with
  | h t ih =>
    intro sh k level x hx
    cases t with
    | file n =>
        rw [buildJsonTree] at hx
        rw [show max 1 (k + 1 - level) = (max 1 (k + 1 - level) - 1) + 1 by omega,
          treeNamesUpTo]
        simpa [jsonNames] using hx
    | dir n cs =>
        rw [buildJsonTree_dir] at hx
        by_cases hstop : depthStop (some k) level = true
        · rw [if_pos hstop] at hx
          simp only [jsonNames, jsonNamesList] at hx
          rw [show max 1 (k + 1 - level) = (max 1 (k + 1 - level) - 1) + 1 by omega,
            treeNamesUpTo]
          have hxn : x = n := by simpa using hx
          subst hxn
          exact List.mem_cons_self _ _
        · rw [if_neg hstop] at hx
          have hlt : level < k := by
            simp only [depthStop, ge_iff_le, decide_eq_true_eq] at hstop
            omega
          rw [show max 1 (k + 1 - level) = (k - level) + 1 by omega, treeNamesUpTo]
          simp only [jsonNames, List.mem_cons] at hx
          rcases hx with h | h
          · subst h; exact List.mem_cons_self _ _
          · obtain ⟨c, hcmem, hxc⟩ := mem_jsonNamesList_jsonChildren sh (some k) level _ x h
            have hsz : sizeOf c < sizeOf (FTree.dir n cs) :=
              mem_visibleSorted_sizeOf_lt sh n cs c hcmem
            have hx2 := ih c hsz sh k (level + 1) x hxc
            rw [show max 1 (k + 1 - (level + 1)) = k - level by omega] at hx2
            refine List.mem_cons_of_mem _ ?_
            have hcs : c ∈ cs :=
              List.mem_of_mem_filter ((List.mem_insertionSort nameLE).mp hcmem)
            exact mem_namesUpToList_of (k - level) cs c hcs x hx2

/-- C5: with `depth = k` (root at level 1, `k ≥ 1`), every name either
rendering reaches belongs to the first `k` levels of the tree, the root node
itself is always rendered (json keeps its name, ascii opens with its label),
and a directory whose level has reached the limit is emitted as a leaf: json
as `children: []`, ascii as its single line with no child lines. -/
theorem depth_limits_rendering (t : FTree) (sh : Bool) (k : Nat) (hk : 1 ≤ k) :
    (∀ x ∈ jsonNames (buildJsonTree t sh (some k) 1), x ∈ treeNamesUpTo k t)
    ∧ (buildJsonTree t sh (some k) 1).name = t.name
    ∧ (buildAsciiTree t "" sh (some k) 1).head? = some (rootLabel t)
    ∧ (∀ (n : String) (cs : List FTree) (pref : String) (level : Nat), k ≤ level →
        buildJsonTree (.dir n cs) sh (some k) level = .dir n []
        ∧ buildAsciiTree (.dir n cs) pref sh (some k) level = [pref ++ n ++ "/"])
    ∧ buildAsciiTree t "" sh (some k) 1 = asciiOfJson "" (buildJsonTree t sh (some k) 1) := by
  refine ⟨?_, buildJsonTree_name t sh (some k) 1, ?_, ?_,
    buildAscii_eq_ofJson t "" sh (some k) 1⟩
  · intro x hx
    have h := jsonNames_depth_sub t sh k 1 x hx
    rwa [show max 1 (k + 1 - 1) = k by omega] at h
  · cases t with
    | file n => simp [buildAsciiTree, rootLabel]
    | dir n cs => by_cases hstop : depthStop (some k) 1 = true <;>
        simp [buildAsciiTree, rootLabel, hstop]
  · intro n cs pref level hlev
    have hstop : depthStop (some k) level = true := by
      simp only [depthStop, ge_iff_le, decide_eq_true_eq]
      omega
    exact ⟨by rw [buildJsonTree_dir, if_pos hstop],
      by simp only [buildAsciiTree, if_pos hstop]⟩

/-- A small concrete tree for the witnesses. -/
def sampleTree : FTree := .dir "root" [.file "a.txt", .dir "sub" [.file "b.txt"]]

/-- Witness for C5 at the sample tree with depth 1. -/
theorem depth_limits_rendering_witness :
    (1 : Nat) ≤ 1
    ∧ (buildJsonTree sampleTree true (some 1) 1).name = sampleTree.name
    ∧ (buildAsciiTree sampleTree "" true (some 1) 1).head? = some (rootLabel sampleTree)
    ∧ (∀ x ∈ jsonNames (buildJsonTree sampleTree true (some 1) 1),
        x ∈ treeNamesUpTo 1 sampleTree) :=
  ⟨le_refl 1, (depth_limits_rendering sampleTree true 1 (le_refl 1)).2.1,
   (depth_limits_rendering sampleTree true 1 (le_refl 1)).2.2.1,
   (depth_limits_rendering sampleTree true 1 (le_refl 1)).1⟩

theorem orderedInsert_of_forall_le {α : Type} (r : α → α → Prop) [DecidableRel r]
    (a : α) (l : List α) (h : ∀ b ∈ l, r a b) :
    List.orderedInsert r a l = a :: l := by
  cases l with
  | nil => rfl
  | cons b m => exact List.orderedInsert_of_le r _ (h b (by simp))

/-- Filtering commutes with ordered insertion into a sorted list. -/
theorem filter_orderedInsert {α : Type} (r : α → α → Prop) [DecidableRel r]
    [IsTotal α r] [IsTrans α r] (p : α → Bool) (a : α) :
    ∀ l : List α, l.Sorted r →
    (List.orderedInsert r a l).filter p =
      if p a then List.orderedInsert r a (l.filter p) else l.filter p := by
  intro l
  induction l with
  | nil =>
      intro _
      cases hpa : p a <;> simp [List.filter, hpa]
  | cons b m ih =>
      intro hs
      rw [List.orderedInsert]
      by_cases hab : r a b
      · rw [if_pos hab]
        have hall : ∀ x ∈ (b :: m).filter p, r a x := by
          intro x hx
          have hxm := List.mem_of_mem_filter hx
          rcases List.mem_cons.mp hxm with h1 | h1
          · subst h1; exact hab
          · exact IsTrans.trans a b x hab (List.rel_of_sorted_cons hs x h1)
        cases hpa : p a
        · rw [if_neg (by decide), List.filter_cons, if_neg (by simp [hpa])]
        · rw [if_pos rfl, List.filter_cons, if_pos hpa,
            orderedInsert_of_forall_le r a _ hall]
      · rw [if_neg hab]
        simp only [List.filter_cons, ih hs.of_cons]
        cases hpa : p a <;> cases hpb : p b <;>
          simp [hpa, hpb, List.orderedInsert, hab]

/-- Filtering commutes with the stable sort: excluded entries do not affect
the relative order of the remaining ones. -/
theorem filter_insertionSort {α : Type} (r : α → α → Prop) [DecidableRel r]
    [IsTotal α r] [IsTrans α r] (p : α → Bool) :
    ∀ l : List α, (List.insertionSort r l).filter p = List.insertionSort r (l.filter p) := by
  intro l
  induction l with
  | nil => rfl
  | cons a m ih =>
      rw [List.insertionSort,
        filter_orderedInsert r p a _ (List.sorted_insertionSort r m), List.filter_cons]
      cases hpa : p a <;> simp [hpa, ih, List.insertionSort]

/-- Hiding is a filter on top of the full listing: the entries kept with
`show_hidden=false` are exactly the non-hidden entries of the
`show_hidden=true` listing, in the same order. -/
theorem visibleSorted_false (cs : List FTree) :
    visibleSorted false cs = (visibleSorted true cs).filter (fun c => !(isHidden c.name)) := by
  unfold visibleSorted
  rw [filter_insertionSort]
  congr 1
  simp

theorem jsonChildren_eq_map (sh : Bool) (d : Option Nat) (l : Nat) :
    ∀ es : List FTree, jsonChildren es sh d l = es.map (fun c => buildJsonTree c sh d (l + 1)) := by
  intro es
  induction es with
  | nil => simp [jsonChildren]
  | cons c rest ih => rw [jsonChildren, ih, List.map_cons]

theorem pruneList_jsonChildren (d : Option Nat) (l : Nat) : ∀ es : List FTree,
    (∀ c ∈ es, buildJsonTree c false d (l + 1) = pruneHidden (buildJsonTree c true d (l + 1))) →
    pruneList (jsonChildren es true d l)
      = jsonChildren (es.filter (fun c => !(isHidden c.name))) false d l := by
  intro es
  induction es with
  | nil => intro _; simp [jsonChildren, pruneList]
  | cons c rest ih =>
      intro hall
      rw [jsonChildren, pruneList, buildJsonTree_name, List.filter_cons]
      cases hh : isHidden c.name
      · rw [if_neg (by simp [hh]), if_pos (by simp [hh]), jsonChildren,
          ih (fun x hx => hall x (List.mem_cons_of_mem _ hx)),
          hall c (List.mem_cons_self _ _)]
      · rw [if_pos (by simp [hh]), if_neg (by simp [hh]),
          ih (fun x hx => hall x (List.mem_cons_of_mem _ hx))]

/-- Rendering with `show_hidden=false` is the pruning of the full rendering:
at every level exactly the hidden-named children are dropped. -/
theorem json_false_eq_prune (t : FTree) : ∀ (d : Option Nat) (l : Nat),
    buildJsonTree t false d l = pruneHidden (buildJsonTree t true d l) := by
  induction t using FTree.sizeOfInduction with
  | h t ih =>
    intro d l
    cases t with
    | file n => simp [buildJsonTree, pruneHidden]
    | dir n cs =>
        rw [buildJsonTree_dir, buildJsonTree_dir, pruneHidden]
        by_cases hstop : depthStop d l = true
        · rw [if_pos hstop, if_pos hstop]
          simp [pruneList]
        · rw [if_neg hstop, if_neg hstop]
          congr 1
          rw [pruneList_jsonChildren d l (visibleSorted true cs)
              (fun c hc => ih c (mem_visibleSorted_sizeOf_lt true n cs c hc) d (l + 1)),
            ← visibleSorted_false]

theorem noHiddenList_jsonChildren (d : Option Nat) (l : Nat) : ∀ es : List FTree,
    (∀ c ∈ es, isHidden c.name = false) →
    (∀ c ∈ es, noHiddenAll (buildJsonTree c false d (l + 1)) = true) →
    noHiddenList (jsonChildren es false d l) = true := by
  intro es
  induction es with
  | nil => intro _ _; simp [jsonChildren, noHiddenList]
  | cons c rest ih =>
      intro hh hrec
      rw [jsonChildren, noHiddenList, buildJsonTree_name]
      rw [hh c (List.mem_cons_self _ _), hrec c (List.mem_cons_self _ _),
        ih (fun x hx => hh x (List.mem_cons_of_mem _ hx))
           (fun x hx => hrec x (List.mem_cons_of_mem _ hx))]
      rfl

/-- With `show_hidden=false` no node below the root of the json document has
a hidden name. -/
theorem json_false_noHidden (t : FTree) : ∀ (d : Option Nat) (l : Nat),
    noHiddenAll (buildJsonTree t false d l) = true := by
  induction t using FTree.sizeOfInduction with
  | h t ih =>
    intro d l
    cases t with
    | file n => simp [buildJsonTree, noHiddenAll]
    | dir n cs =>
        rw [buildJsonTree_dir]
        by_cases hstop : depthStop d l = true
        · rw [if_pos hstop]
          simp [noHiddenAll, noHiddenList]
        · rw [if_neg hstop]
          rw [noHiddenAll]
          refine noHiddenList_jsonChildren d l (visibleSorted false cs) ?_ ?_
          · intro c hc
            have hmem := (List.mem_insertionSort nameLE).mp hc
            have := (List.mem_filter.mp hmem).2
            simpa using this
          · intro c hc
            exact ih c (mem_visibleSorted_sizeOf_lt false n cs c hc) d (l + 1)

theorem jsonNamesList_flatten : ∀ cs : List JNode,
    jsonNamesList cs = (cs.map jsonNames).flatten := by
  intro cs
  induction cs with
  | nil => rfl
  | cons c rest ih => rw [jsonNamesList, ih, List.map_cons, List.flatten_cons]

theorem treeNamesList_flatten : ∀ cs : List FTree,
    treeNamesList cs = (cs.map treeNames).flatten := by
  intro cs
  induction cs with
  | nil => rfl
  | cons c rest ih => rw [treeNamesList, ih, List.map_cons, List.flatten_cons]

theorem flatten_map_perm {α β : Type} (f g : α → List β) :
    ∀ l : List α, (∀ c ∈ l, (f c).Perm (g c)) →
    ((l.map f).flatten).Perm ((l.map g).flatten) := by
  intro l
  induction l with
  | nil => intro _; rfl
  | cons c rest ih =>
      intro hall
      simp only [List.map_cons, List.flatten_cons]
      exact (hall c (List.mem_cons_self _ _)).append
        (ih (fun x hx => hall x (List.mem_cons_of_mem _ hx)))

theorem visibleSorted_true_perm (cs : List FTree) : (visibleSorted true cs).Perm cs := by
  unfold visibleSorted
  refine (List.perm_insertionSort _ _).trans ?_
  rw [show cs.filter (fun c => true || !(isHidden c.name)) = cs from by simp]

/-- With `show_hidden=true` and no depth limit the json document lists all
names of the tree, each exactly as often as it occurs. -/
theorem json_true_perm (t : FTree) : ∀ l : Nat,
    (jsonNames (buildJsonTree t true none l)).Perm (treeNames t) := by
  induction t using FTree.sizeOfInduction with
  | h t ih =>
    intro l
    cases t with
    | file n => simp [buildJsonTree, jsonNames, treeNames]
    | dir n cs =>
        rw [buildJsonTree_dir, if_neg (by simp [depthStop]), jsonNames, treeNames]
        refine List.Perm.cons n ?_
        rw [jsonNamesList_flatten, jsonChildren_eq_map, treeNamesList_flatten,
          List.map_map]
        refine List.Perm.trans ?_ (flatten_map_perm
          (fun c => jsonNames (buildJsonTree c true none (l + 1))) treeNames cs ?_)
        · exact ((visibleSorted_true_perm cs).map _).flatten
        · intro c hc
          refine ih c ?_ (l + 1)
          have := List.sizeOf_lt_of_mem hc
          simp only [FTree.dir.sizeOf_spec]
          omega

/-- C6: in either format and at every nesting level, `show_hidden=false`
excludes exactly the entries whose name begins with the hidden marker `.` —
the listing equals the fully-listed rendering with hidden-named children
pruned, so the excluded entries do not disturb the order of the remaining
siblings, and no hidden name remains; `show_hidden=true` includes every
entry. -/
theorem hidden_filtering (t : FTree) (depth : Option Nat) (level : Nat) (pref : String) :
    buildJsonTree t false depth level = pruneHidden (buildJsonTree t true depth level)
    ∧ noHiddenAll (buildJsonTree t false depth level) = true
    ∧ (jsonNames (buildJsonTree t true none 1)).Perm (treeNames t)
    ∧ buildAsciiTree t pref false depth level
        = asciiOfJson pref (pruneHidden (buildJsonTree t true depth level)) :=
  ⟨json_false_eq_prune t depth level, json_false_noHidden t depth level, json_true_perm t 1,
   by rw [buildAscii_eq_ofJson t pref false depth level, json_false_eq_prune t depth level]⟩
